import Mathlib

/-!
Shallow embedding of the email-scraper pipeline from src/main.py and
verification of its documented behavior.  Pure helpers (the regex email
search, the href scan, URL splitting and joining) are modelled as
executable functions over List Char / String; the network is modelled as
a function from URLs to outcomes; the asyncio batch run is modelled as a
small-step scheduler over per-task states, with one atomic step per
stretch of code between await points.
-/

namespace EmailScraper

set_option maxHeartbeats 1000000

/-- Character class of the regex local part: one of a-z, A-Z, 0-9, dot,
underscore, percent, plus, minus. -/
def isLocalChar (c : Char) : Bool :=
  c.isAlpha || c.isDigit || c == '.' || c == '_' || c == '%' || c == '+' || c == '-'

/-- Character class of the regex domain part: one of a-z, A-Z, 0-9, dot, minus. -/
def isDomainChar (c : Char) : Bool :=
  c.isAlpha || c.isDigit || c == '.' || c == '-'

/-- One backtracking attempt for the domain half of the email regex
(domain group of length k, then a literal dot, then a greedy alphabetic
run of length at least 2).  Mirrors one backtracking state of Python
re on the pattern used in find_email. -/
def domCheck (r : List Char) (k : Nat) : Option (List Char) :=
  match r.drop k with
  | c :: after =>
    if c == '.' then
      let t := after.takeWhile Char.isAlpha
      if 2 ≤ t.length then some (r.take k ++ '.' :: t) else none
    else none
  | [] => none

/-- Greedy backtracking over the domain-group length: the longest
candidate is tried first, as Python re does for a greedy plus. -/
def tryDomain (r : List Char) : Nat → Option (List Char)
  | 0 => none
  | k + 1 =>
    match domCheck r (k + 1) with
    | some m => some m
    | none => tryDomain r k

/-- Attempt of the whole email regex at the first position of s.  The
local part is forced to be the maximal run of local characters (the
character after it must be the at sign, which is not a local character,
so Python's backtracking accepts exactly the maximal run). -/
def matchAtHead (s : List Char) : Option (List Char) :=
  let l := s.takeWhile isLocalChar
  if l.isEmpty then none
  else
    match s.dropWhile isLocalChar with
    | c :: rest =>
      if c == '@' then
        match tryDomain rest (rest.takeWhile isDomainChar).length with
        | some dm => some (l ++ '@' :: dm)
        | none => none
      else none
    | [] => none

/-- Leftmost search of the email regex, as Python re.search: try each
start position from the left, return the first success. -/
def searchEmail : List Char → Option (List Char)
  | [] => none
  | c :: rest =>
    match matchAtHead (c :: rest) with
    | some m => some m
    | none => searchEmail rest

/-- Image-file extensions filtered out by find_email (src/main.py line 93). -/
def imageExtensions : List String := ["png", "jpg", "jpeg", "gif", "svg", "bmp", "webp"]

/-- True when the matched text ends with one of the image-file extensions,
as the endswith loop in find_email checks (case-sensitive). -/
def hasImageSuffix (m : List Char) : Bool :=
  imageExtensions.any (fun e => e.data.isSuffixOf m)

/-- Model of EmailScraper.find_email (src/main.py lines 78 to 96): empty
content yields none; otherwise run the regex search; a match ending in an
image-file extension is discarded; otherwise the match is returned. -/
def find_email (content : String) : Option String :=
  if content.data.isEmpty then none
  else
    match searchEmail content.data with
    | some m => if hasImageSuffix m then none else some (String.mk m)
    | none => none

/-- Specification-side predicate: r is exactly a word of the domain half
of the email pattern, that is a nonempty domain group, a dot, and a
top-level segment of at least two alphabetic characters reaching the end
of r. -/
def domShapeB (r : List Char) : Bool :=
  (List.range r.length).any (fun k =>
    decide (1 ≤ k) && (r.take k).all isDomainChar &&
    (match r.drop k with
     | c :: t => (c == '.') && t.all Char.isAlpha && decide (2 ≤ t.length)
     | [] => false))

/-- Specification-side predicate: the whole of m matches the email
pattern, that is a nonempty local part, the at sign, and a domain half.
The local part of such a word is forced to be the maximal run of local
characters, because the at sign is not a local character. -/
def emailShapeB (m : List Char) : Bool :=
  match m.dropWhile isLocalChar with
  | c :: r => (c == '@') && !(m.takeWhile isLocalChar).isEmpty && domShapeB r
  | [] => false

/-- True when the second list begins with the first one (Python startswith,
also a single step of the substring scan). -/
def startsWithL : List Char → List Char → Bool
  | [], _ => true
  | _ :: _, [] => false
  | a :: as, b :: bs => a == b && startsWithL as bs

/-- Python substring membership (the in operator on strings). -/
def containsSub (needle : List Char) : List Char → Bool
  | [] => needle.isEmpty
  | c :: rest => startsWithL needle (c :: rest) || containsSub needle rest

/-- Python url.replace with the literal mailto: and empty replacement:
remove every non-overlapping occurrence, scanning left to right. -/
def removeMailto : List Char → List Char
  | 'm' :: 'a' :: 'i' :: 'l' :: 't' :: 'o' :: ':' :: rest => removeMailto rest
  | c :: rest => c :: removeMailto rest
  | [] => []

/-- Python s.split with a question mark, first component: the text before
the first question mark (the whole text when there is none). -/
def splitQ (s : List Char) : List Char :=
  s.takeWhile (fun c => c ≠ '?')

/-- Scan step of re.findall over the href pattern, with a structural fuel
so that the function reduces in the kernel.  On the six-character literal
sequence h r e f equals quote, the value runs to the next double quote
and the scan resumes after it; when no closing quote follows, the scan
resumes one character later, as Python re does on a failed attempt.  Each
step consumes at least one character, so a fuel equal to the initial
length never runs out before the text does; hrefValuesAux_congr below
proves the result does not depend on the fuel once it is large enough. -/
def hrefValuesAux : Nat → List Char → List (List Char)
  | 0, _ => []
  | fuel + 1, l =>
    if startsWithL "href=\"".data l then
      let after := l.drop 6
      if after.contains '"' then
        let v := after.takeWhile (fun c => c ≠ '"')
        v :: hrefValuesAux fuel (after.drop (v.length + 1))
      else
        hrefValuesAux fuel (l.drop 1)
    else
      match l with
      | _ :: rest => hrefValuesAux fuel rest
      | [] => []

/-- Model of re.findall over the href pattern (src/main.py line 107): the
attribute values between a literal sequence h r e f equals quote and the
next double quote, scanning left to right without overlap. -/
def hrefValues (s : List Char) : List (List Char) :=
  hrefValuesAux s.length s

/-- Characters allowed in a URL scheme after the initial letter. -/
def isSchemeChar (c : Char) : Bool :=
  c.isAlpha || c.isDigit || c == '+' || c == '-' || c == '.'

/-- Model of the scheme split in urllib.parse.urlsplit: the text before
the first colon is the scheme when it is nonempty, starts with a letter
and uses only scheme characters (the scheme is lowercased); otherwise the
URL has no scheme. -/
def splitScheme (u : List Char) : Option (List Char × List Char) :=
  let pre := u.takeWhile (fun c => c ≠ ':')
  match u.drop pre.length with
  | ':' :: rest =>
    match pre with
    | [] => none
    | c :: cs =>
      if c.isAlpha && cs.all isSchemeChar then
        some ((c :: cs).map Char.toLower, rest)
      else none
  | _ => none

/-- Model of the netloc split in urllib.parse.urlsplit: when the remaining
text starts with two slashes, the netloc runs until the next slash,
question mark or hash; otherwise it is empty. -/
def splitNetloc (r : List Char) : List Char × List Char :=
  match r with
  | '/' :: '/' :: rest =>
    let n := rest.takeWhile (fun c => c ≠ '/' && c ≠ '?' && c ≠ '#')
    (n, rest.drop n.length)
  | _ => ([], r)

/-- Model of EmailScraper.extract_homepage (src/main.py lines 47 to 59):
urlsplit the URL and rebuild scheme colon slash slash netloc. -/
def extract_homepage (url : String) : String :=
  match splitScheme url.data with
  | some (sch, rest) => String.mk (sch ++ "://".data ++ (splitNetloc rest).1)
  | none => String.mk ("://".data ++ (splitNetloc url.data).1)

/-- Modelled from urllib.parse.urljoin, restricted to the cases reachable
from find_contact_urls (the reference never contains the substring http
there): an empty reference returns the base, a reference with its own
scheme is used as is, a reference starting with two slashes keeps only the
base scheme, a reference starting with one slash replaces the base path,
and any other reference replaces the last segment of the base path.
Dot-segment normalisation and query splitting are not modelled; no theorem
below evaluates urljoin on inputs where they matter. -/
def urljoin (base url : String) : String :=
  if url.data.isEmpty then base
  else if base.data.isEmpty then url
  else
    match splitScheme url.data with
    | some _ => url
    | none =>
      let (bsch, brest) :=
        match splitScheme base.data with
        | some (s, r) => (s, r)
        | none => ([], base.data)
      let (bnet, bpath) := splitNetloc brest
      match url.data with
      | '/' :: '/' :: _ => String.mk (bsch ++ ':' :: url.data)
      | '/' :: _ => String.mk (bsch ++ "://".data ++ bnet ++ url.data)
      | _ =>
        let dir := (bpath.reverse.dropWhile (fun c => c ≠ '/')).reverse
        let newPath := if dir.isEmpty then '/' :: url.data else dir ++ url.data
        String.mk (bsch ++ "://".data ++ bnet ++ newPath)

/-- Keyword substrings that mark a contact-candidate link. -/
def contactKeywords : List String := ["contact", "about", "terms"]

/-- Resolution of a collected contact link (src/main.py line 118): join
with the base exactly when the value does not contain the substring http. -/
def resolveContact (base : String) (u : List Char) : String :=
  if containsSub "http".data u then String.mk u else urljoin base (String.mk u)

/-- Body of the loop of find_contact_urls (src/main.py lines 111 to 121):
a value containing mailto: whose cleaned remainder is nonempty is returned
at once as the sole result; a value containing a keyword is appended,
resolved when needed; anything else is skipped. -/
def scanUrls (base : String) : List (List Char) → List String → List String
  | [], acc => acc
  | u :: rest, acc =>
    if containsSub "mailto:".data u then
      let email := splitQ (removeMailto u)
      if email.isEmpty then scanUrls base rest acc
      else [String.mk email]
    else if contactKeywords.any (fun sub => containsSub sub.data u) then
      scanUrls base rest (acc ++ [resolveContact base u])
    else scanUrls base rest acc

/-- Model of EmailScraper.find_contact_urls (src/main.py lines 98 to 121). -/
def find_contact_urls (base content : String) : List String :=
  scanUrls base (hrefValues content.data) []

/-- Outcome of one HTTP GET as seen by the session: a response with a
status and a body, or a raised error (transport failure, timeout,
malformed URL and so on), with its message. -/
inductive FetchOutcome where
  | ok (status : Nat) (body : String)
  | err (reason : String)
deriving DecidableEq, Repr

/-- The network of one run: a deterministic assignment of outcomes to
URLs. -/
def Network : Type := String → FetchOutcome

/-- Model of EmailScraper.fetch (src/main.py lines 24 to 45): the body is
returned exactly on status 200; any other status and any raised error
yield None and never propagate. -/
def fetch (net : Network) (url : String) : Option String :=
  match net url with
  | .ok s b => if s == 200 then some b else none
  | .err _ => none

/-- Membership-preserving insertion into the processed set (Python
set.add modelled on a duplicate-free list). -/
def addSet (P : List String) (h : String) : List String :=
  if h ∈ P then P else P ++ [h]

/-- The contact-link fallback loop of process_website (src/main.py lines
143 to 153), run against a fixed network.  Returns the email found, if
any, together with the list of contact URLs actually fetched, in order. -/
def contactLoop (net : Network) : List String → Option String × List String
  | [] => (none, [])
  | c :: rest =>
    if containsSub "@".data c.data then (some c, [])
    else
      match fetch net c with
      | none => ((contactLoop net rest).1, c :: (contactLoop net rest).2)
      | some s =>
        if s.isEmpty then ((contactLoop net rest).1, c :: (contactLoop net rest).2)
        else
          match find_email s with
          | some e => (some e, [c])
          | none => ((contactLoop net rest).1, c :: (contactLoop net rest).2)

/-- Outcome of one website task and of a whole run. -/
abbrev SiteResult := String × Option String

/-- Specification-side summary of one candidate of the fallback chain: a
candidate containing an at sign is itself the email; otherwise the email
found on its fetched page, if the fetch yields usable content. -/
def candOutcome (net : Network) (c : String) : Option String :=
  if containsSub "@".data c.data then some c
  else
    match fetch net c with
    | none => none
    | some s => if s.isEmpty then none else find_email s

/-- Model of EmailScraper.process_website (src/main.py lines 123 to 155)
run in isolation (no interleaving with other tasks): given the processed
set, return the updated set, the optional result, the homepage fetch
events and the contact fetch events. -/
def process_website (net : Network) (P : List String) (url : String) :
    List String × Option SiteResult × List String × List String :=
  let h := extract_homepage url
  if h ∈ P then (P, none, [], [])
  else
    match fetch net h with
    | none => (addSet P h, some (h, none), [h], [])
    | some s =>
      if s.isEmpty then (addSet P h, some (h, none), [h], [])
      else
        match find_email s with
        | some e => (addSet P h, some (h, some e), [h], [])
        | none =>
          let r := contactLoop net (find_contact_urls h s)
          (addSet P h, some (h, r.1), [h], r.2)

/-- Result of a sequential batch run. -/
structure SeqRun where
  processed : List String
  results : List (Option SiteResult)
  homeFetches : List String
deriving Repr

/-- Sequential batch run: each task runs to completion before the next
starts (the batch of src/main.py under a non-interleaved schedule). -/
def runSeq (net : Network) (P : List String) : List String → SeqRun
  | [] => ⟨P, [], []⟩
  | u :: rest =>
    let (P1, r, hev, _) := process_website net P u
    let out := runSeq net P1 rest
    ⟨out.processed, r :: out.results, hev ++ out.homeFetches⟩

/-- State of one asyncio task of process_website, between await points:
not yet started, suspended in the homepage fetch, suspended in a contact
fetch (with the candidates still to try), or finished. -/
inductive TState where
  | start (url : String)
  | awaitHome (homepage : String)
  | awaitContact (homepage : String) (cur : String) (rest : List String)
  | finished (res : Option SiteResult)
deriving Repr

/-- Advance the fallback loop until the next fetch is issued or the task
finishes; returns the new task state and the contact fetches issued. -/
def enterLoop (h : String) : List String → TState × List String
  | [] => (.finished (some (h, none)), [])
  | c :: rest =>
    if containsSub "@".data c.data then (.finished (some (h, some c)), [])
    else (.awaitContact h c rest, [c])

/-- Resume a task after a contact fetch completed with the given content
(src/main.py lines 147 to 153). -/
def afterContactFetch (h : String) (content : Option String) (rest : List String) :
    TState × List String :=
  match content with
  | none => enterLoop h rest
  | some s =>
    if s.isEmpty then enterLoop h rest
    else
      match find_email s with
      | some e => (.finished (some (h, some e)), [])
      | none => enterLoop h rest

/-- Resume a task after the homepage fetch completed with the given
content (src/main.py lines 137 to 155). -/
def afterHomeFetch (h : String) (content : Option String) : TState × List String :=
  match content with
  | none => (.finished (some (h, none)), [])
  | some s =>
    if s.isEmpty then (.finished (some (h, none)), [])
    else
      match find_email s with
      | some e => (.finished (some (h, some e)), [])
      | none => enterLoop h (find_contact_urls h s)

/-- Global state of a batch run: the per-task states, the shared
ALREADY_PROCESSED set, and the fetch events so far (homepage fetches and
contact fetches, each in issue order). -/
structure GState where
  tasks : List TState
  processed : List String
  homeFetches : List String
  contactFetches : List String
deriving Repr

/-- One atomic step of task i: the stretch of process_website between two
await points.  A task at start checks ALREADY_PROCESSED and, when absent,
begins the homepage fetch; NOTE the insertion into ALREADY_PROCESSED only
happens when the fetch returns (src/main.py line 136 is after line 135),
inside the awaitHome step. -/
def stepTask (net : Network) (g : GState) (i : Nat) : GState :=
  match g.tasks.get? i with
  | none => g
  | some t =>
    match t with
    | .start url =>
      let h := extract_homepage url
      if h ∈ g.processed then
        { g with tasks := g.tasks.set i (.finished none) }
      else
        { g with tasks := g.tasks.set i (.awaitHome h),
                 homeFetches := g.homeFetches ++ [h] }
    | .awaitHome h =>
      let r := afterHomeFetch h (fetch net h)
      { g with tasks := g.tasks.set i r.1,
               processed := addSet g.processed h,
               contactFetches := g.contactFetches ++ r.2 }
    | .awaitContact h c rest =>
      let r := afterContactFetch h (fetch net c) rest
      { g with tasks := g.tasks.set i r.1,
               contactFetches := g.contactFetches ++ r.2 }
    | .finished _ => g

/-- Initial global state of a run: one task per candidate URL, and the
current contents of the class attribute ALREADY_PROCESSED (empty only on
the first run of the process, since scrape_emails never clears it). -/
def initG (urls : List String) (P0 : List String) : GState :=
  ⟨urls.map .start, P0, [], []⟩

/-- Run the batch under an explicit schedule: at each schedule entry, the
named task performs its next atomic step. -/
def runSched (net : Network) (g : GState) : List Nat → GState
  | [] => g
  | i :: sched => runSched net (stepTask net g i) sched

/-- Results in task order, as asyncio.gather returns them (a task not yet
finished contributes none; theorems use completing schedules). -/
def gatherResults (g : GState) : List (Option SiteResult) :=
  g.tasks.map (fun t =>
    match t with
    | .finished r => r
    | _ => none)

/-- The CSV stage of scrape_emails (src/main.py lines 165 to 170): iterate
the gathered results, unpacking each into url and email.  Unpacking a
None raises a TypeError, modelled as an error value; a row is written
only when the email is truthy. -/
def writeCsv : List (Option SiteResult) → Except String (List (String × String))
  | [] => .ok []
  | none :: _ => .error "TypeError: cannot unpack non-iterable NoneType object"
  | some (u, e) :: rest =>
    match writeCsv rest with
    | .error m => .error m
    | .ok rows =>
      .ok (match e with
           | some em => if em.isEmpty then rows else (u, em) :: rows
           | none => rows)

/-- Model of EmailScraper.scrape_emails (src/main.py lines 157 to 170)
for a given URL list (the search result), initial ALREADY_PROCESSED
contents and schedule: gather all task results, then write the CSV. -/
def scrape_emails (net : Network) (P0 : List String) (urls : List String)
    (sched : List Nat) : Except String (List (String × String)) :=
  writeCsv (gatherResults (runSched net (initG urls P0) sched))

/-- Number of results attributed to a given homepage in a result list. -/
def countResultsFor (h : String) (rs : List (Option SiteResult)) : Nat :=
  rs.countP (fun r =>
    match r with
    | some (h', _) => h' == h
    | none => false)

/-- A network on which every page responds 200 with a fixed plain body
(no email, no links). -/
def netOkPlain : Network := fun _ => .ok 200 "hello world"

/-- A network on which every fetch raises. -/
def netDown : Network := fun _ => .err "connection refused"

/-- A network for the fallback-chain demonstration: the contact page
times out, the about page carries an email, everything else is a plain
page. -/
def netContactDemo : Network := fun u =>
  if u = "https://x.com/contact" then .err "timeout"
  else if u = "https://x.com/about" then .ok 200 "mail e@f.gh"
  else .ok 200 "zzz"

/-! List helper lemmas used by the regex-matcher proofs, and the
fuel-irrelevance of the href scan. -/

theorem startsWithL_length (n : List Char) :
    ∀ h, startsWithL n h = true → n.length ≤ h.length := by
  induction n with
  | nil => intro h _; exact Nat.zero_le _
  | cons a as ih =>
    intro h hs
    cases h with
    | nil => simp [startsWithL] at hs
    | cons b bs =>
      simp only [startsWithL, Bool.and_eq_true] at hs
      simpa [List.length_cons] using Nat.succ_le_succ (ih bs hs.2)

theorem hrefValuesAux_congr :
    ∀ (f1 f2 : Nat) (l : List Char), l.length ≤ f1 → l.length ≤ f2 →
      hrefValuesAux f1 l = hrefValuesAux f2 l := by
  intro f1
  induction f1 with
  | zero =>
    intro f2 l h1 _
    have hl : l = [] := List.eq_nil_of_length_eq_zero (Nat.le_zero.mp h1)
    subst hl
    cases f2 with
    | zero => rfl
    | succ b => rfl
  | succ a ih =>
    intro f2 l h1 h2
    cases f2 with
    | zero =>
      have hl : l = [] := List.eq_nil_of_length_eq_zero (Nat.le_zero.mp h2)
      subst hl
      rfl
    | succ b =>
      unfold hrefValuesAux
      by_cases hs : startsWithL "href=\"".data l = true
      · have h6 : 6 ≤ l.length := startsWithL_length _ l hs
        simp only [if_pos hs]
        by_cases hq : (l.drop 6).contains '"' = true
        · simp only [if_pos hq]
          refine congrArg _ (ih b _ ?_ ?_) <;>
            · simp only [List.length_drop]
              omega
        · simp only [if_neg hq]
          refine ih b _ ?_ ?_ <;>
            · simp only [List.length_drop]
              omega
      · simp only [if_neg hs]
        cases l with
        | nil => rfl
        | cons c rest =>
          dsimp only
          exact ih b rest (by simpa using h1) (by simpa using h2)

theorem hrefValues_step_value (l : List Char)
    (hs : startsWithL "href=\"".data l = true)
    (hq : (l.drop 6).contains '"' = true) :
    hrefValues l = (l.drop 6).takeWhile (fun c => c ≠ '"') ::
      hrefValues ((l.drop 6).drop (((l.drop 6).takeWhile (fun c => c ≠ '"')).length + 1)) := by
  have h6 : 6 ≤ l.length := startsWithL_length _ l hs
  obtain ⟨n, hn⟩ : ∃ n, l.length = n + 1 := ⟨l.length - 1, by omega⟩
  show hrefValuesAux l.length l = _
  rw [hn]
  unfold hrefValuesAux
  simp only [if_pos hs, if_pos hq]
  refine congrArg _ ?_
  show hrefValuesAux n _ = hrefValuesAux (List.length _) _
  refine hrefValuesAux_congr n _ _ ?_ (Nat.le_refl _)
  simp only [List.length_drop]
  omega

theorem hrefValues_step_skip (c : Char) (rest : List Char)
    (hs : startsWithL "href=\"".data (c :: rest) = false) :
    hrefValues (c :: rest) = hrefValues rest := by
  show hrefValuesAux (c :: rest).length (c :: rest) = _
  simp only [List.length_cons]
  unfold hrefValuesAux
  simp only [hs, Bool.false_eq_true, if_false]
  rfl

theorem take_all_of_le_takeWhile {α} {p : α → Bool} (l : List α) (k : Nat)
    (h : k ≤ (l.takeWhile p).length) : (l.take k).all p = true := by
  induction l generalizing k with
  | nil => simp only [List.takeWhile_nil, List.length_nil, Nat.le_zero] at h; subst h; rfl
  | cons c cs ih =>
    cases k with
    | zero => rfl
    | succ k =>
      by_cases hc : p c
      · rw [List.takeWhile_cons_of_pos hc, List.length_cons] at h
        simp only [List.take_succ_cons, List.all_cons, hc, Bool.true_and]
        exact ih k (Nat.succ_le_succ_iff.mp h)
      · rw [List.takeWhile_cons_of_neg hc] at h
        simp at h

theorem le_takeWhile_of_take_all {α} {p : α → Bool} (l : List α) (k : Nat)
    (hk : k ≤ l.length) (h : (l.take k).all p = true) : k ≤ (l.takeWhile p).length := by
  induction l generalizing k with
  | nil => simpa using hk
  | cons c cs ih =>
    cases k with
    | zero => exact Nat.zero_le _
    | succ k =>
      simp only [List.take_succ_cons, List.all_cons, Bool.and_eq_true] at h
      rw [List.takeWhile_cons_of_pos h.1, List.length_cons]
      exact Nat.succ_le_succ (ih k (by simpa using hk) h.2)

theorem takeWhile_middle_not {α} {p : α → Bool} (l : List α) (c : α) (r : List α)
    (hl : ∀ a ∈ l, p a = true) (hc : p c = false) :
    (l ++ c :: r).takeWhile p = l ∧ (l ++ c :: r).dropWhile p = c :: r := by
  constructor
  · rw [List.takeWhile_append_of_pos hl, List.takeWhile_cons_of_neg (by simp [hc]),
      List.append_nil]
  · rw [List.dropWhile_append_of_pos hl, List.dropWhile_cons_of_neg (by simp [hc])]

theorem take_append_of_le {α} (a b : List α) (k : Nat) (h : k ≤ a.length) :
    (a ++ b).take k = a.take k := by
  induction a generalizing k with
  | nil => simp only [List.length_nil, Nat.le_zero] at h; subst h; rfl
  | cons x xs ih =>
    cases k with
    | zero => rfl
    | succ k =>
      simp only [List.cons_append, List.take_succ_cons]
      rw [ih k (Nat.succ_le_succ_iff.mp (by simpa using h))]

theorem drop_append_of_le {α} (a b : List α) (k : Nat) (h : k ≤ a.length) :
    (a ++ b).drop k = a.drop k ++ b := by
  induction a generalizing k with
  | nil => simp only [List.length_nil, Nat.le_zero] at h; subst h; rfl
  | cons x xs ih =>
    cases k with
    | zero => rfl
    | succ k =>
      simp only [List.cons_append, List.drop_succ_cons]
      exact ih k (Nat.succ_le_succ_iff.mp (by simpa using h))

/-! Characterisations of the pattern predicates. -/

theorem isLocalChar_at : isLocalChar '@' = false := by decide

theorem domShapeB_iff (r : List Char) :
    domShapeB r = true ↔
      ∃ k t, 1 ≤ k ∧ (r.take k).all isDomainChar = true ∧ r.drop k = '.' :: t ∧
        t.all Char.isAlpha = true ∧ 2 ≤ t.length := by
  constructor
  · intro h
    simp only [domShapeB, List.any_eq_true, List.mem_range] at h
    obtain ⟨k, _, hk⟩ := h
    simp only [Bool.and_eq_true, decide_eq_true_eq] at hk
    obtain ⟨⟨h1, h2⟩, h3⟩ := hk
    cases hdrop : r.drop k with
    | nil => rw [hdrop] at h3; exact absurd h3 (by simp)
    | cons c t =>
      rw [hdrop] at h3
      simp only [Bool.and_eq_true, beq_iff_eq, decide_eq_true_eq] at h3
      obtain ⟨⟨hc, ht⟩, hlen⟩ := h3
      subst hc
      exact ⟨k, t, h1, h2, hdrop, ht, hlen⟩
  · rintro ⟨k, t, h1, h2, h3, h4, h5⟩
    simp only [domShapeB, List.any_eq_true, List.mem_range]
    refine ⟨k, ?_, ?_⟩
    · have := congrArg List.length h3
      simp only [List.length_drop, List.length_cons] at this
      omega
    · simp only [Bool.and_eq_true, decide_eq_true_eq]
      exact ⟨⟨h1, h2⟩, by rw [h3]; simp [h4, h5]⟩

theorem emailShapeB_iff (m : List Char) :
    emailShapeB m = true ↔
      ∃ l r, m = l ++ '@' :: r ∧ l ≠ [] ∧ l.all isLocalChar = true ∧ domShapeB r = true := by
  constructor
  · intro h
    unfold emailShapeB at h
    cases hdrop : m.dropWhile isLocalChar with
    | nil => rw [hdrop] at h; exact absurd h (by simp)
    | cons c r =>
      rw [hdrop] at h
      simp only [Bool.and_eq_true, beq_iff_eq, Bool.not_eq_eq_eq_not, Bool.not_true] at h
      obtain ⟨⟨hc, hne⟩, hdom⟩ := h
      subst hc
      refine ⟨m.takeWhile isLocalChar, r, ?_, ?_, List.all_takeWhile, hdom⟩
      · conv_lhs => rw [← List.takeWhile_append_dropWhile (p := isLocalChar) (l := m)]
        rw [hdrop]
      · intro hnil
        rw [hnil] at hne
        simp at hne
  · rintro ⟨l, r, rfl, hne, hall, hdom⟩
    have hmid := takeWhile_middle_not l '@' r
      (fun a ha => List.all_eq_true.mp hall a ha) isLocalChar_at
    unfold emailShapeB
    rw [hmid.2, hmid.1]
    simp only [Bool.and_eq_true, beq_iff_eq, Bool.not_eq_eq_eq_not, Bool.not_true]
    exact ⟨⟨trivial, by simpa [List.isEmpty_iff] using hne⟩, hdom⟩

/-! Soundness and completeness of the executable matcher with respect to
the pattern predicate. -/

theorem domCheck_sound (r : List Char) (k : Nat) (dm : List Char)
    (hk : k ≤ (r.takeWhile isDomainChar).length)
    (h1 : 1 ≤ k) (h : domCheck r k = some dm) :
    domShapeB dm = true ∧ ∃ ext, r = dm ++ ext := by
  unfold domCheck at h
  cases hdrop : r.drop k with
  | nil => rw [hdrop] at h; exact absurd h (by simp)
  | cons c after =>
    rw [hdrop] at h
    dsimp only at h
    by_cases hc : c == '.'
    · have hceq : c = '.' := by simpa using hc
      subst hceq
      rw [if_pos hc] at h
      by_cases hlen : 2 ≤ (after.takeWhile Char.isAlpha).length
      · rw [if_pos hlen] at h
        have hdm : dm = r.take k ++ '.' :: after.takeWhile Char.isAlpha :=
          (Option.some.injEq _ _ ▸ h).symm
        have hkr : k < r.length := by
          have := congrArg List.length hdrop
          simp only [List.length_drop, List.length_cons] at this
          omega
        have hlentake : (r.take k).length = k := by
          simp [List.length_take]
          omega
        constructor
        · rw [domShapeB_iff]
          refine ⟨k, after.takeWhile Char.isAlpha, h1, ?_, ?_, List.all_takeWhile, hlen⟩
          · rw [hdm, take_append_of_le _ _ k (by omega), List.take_take, Nat.min_self]
            exact take_all_of_le_takeWhile r k hk
          · rw [hdm, List.drop_left' hlentake]
        · refine ⟨after.dropWhile Char.isAlpha, ?_⟩
          rw [hdm, List.append_assoc, List.cons_append,
            List.takeWhile_append_dropWhile, ← hdrop, List.take_append_drop]
      · rw [if_neg hlen] at h; exact absurd h (by simp)
    · rw [if_neg hc] at h; exact absurd h (by simp)

theorem tryDomain_sound (r : List Char) (dm : List Char) :
    ∀ n, n ≤ (r.takeWhile isDomainChar).length → tryDomain r n = some dm →
      domShapeB dm = true ∧ ∃ ext, r = dm ++ ext := by
  intro n
  induction n with
  | zero => intro _ h; exact absurd h (by simp [tryDomain])
  | succ k ih =>
    intro hn h
    unfold tryDomain at h
    cases hdc : domCheck r (k + 1) with
    | some m =>
      rw [hdc] at h
      have hm : m = dm := by simpa using h
      subst hm
      exact domCheck_sound r (k + 1) m hn (Nat.succ_le_succ (Nat.zero_le k)) hdc
    | none =>
      rw [hdc] at h
      exact ih (Nat.le_of_succ_le hn) h

theorem tryDomain_complete (r : List Char) (k : Nat) (dm : List Char)
    (h1 : 1 ≤ k) (h : domCheck r k = some dm) :
    ∀ n, k ≤ n → tryDomain r n ≠ none := by
  intro n
  induction n with
  | zero => intro hk; omega
  | succ j ih =>
    intro hk
    unfold tryDomain
    cases hdc : domCheck r (j + 1) with
    | some m => simp
    | none =>
      simp only
      rcases Nat.lt_or_ge k (j + 1) with hlt | hge
      · exact ih (by omega)
      · have : k = j + 1 := by omega
        rw [this] at h
        rw [h] at hdc
        exact absurd hdc (by simp)

theorem domCheck_of_shape (r' suf : List Char) (k : Nat) (t : List Char)
    (h1 : 1 ≤ k) (h2 : (r'.take k).all isDomainChar = true)
    (h3 : r'.drop k = '.' :: t) (h4 : t.all Char.isAlpha = true) (h5 : 2 ≤ t.length) :
    (∃ dm, domCheck (r' ++ suf) k = some dm) ∧
      k ≤ ((r' ++ suf).takeWhile isDomainChar).length := by
  have hkr : k < r'.length := by
    have := congrArg List.length h3
    simp only [List.length_drop, List.length_cons] at this
    omega
  have htake : (r' ++ suf).take k = r'.take k := take_append_of_le _ _ k (by omega)
  have hle : k ≤ ((r' ++ suf).takeWhile isDomainChar).length := by
    apply le_takeWhile_of_take_all _ k (by simp; omega)
    rw [htake]
    exact h2
  refine ⟨?_, hle⟩
  have hdrop : (r' ++ suf).drop k = '.' :: (t ++ suf) := by
    rw [drop_append_of_le _ _ k (by omega), h3, List.cons_append]
  unfold domCheck
  rw [hdrop]
  simp only [beq_self_eq_true, if_pos]
  have hext : (t ++ suf).takeWhile Char.isAlpha = t ++ suf.takeWhile Char.isAlpha :=
    List.takeWhile_append_of_pos (fun a ha => List.all_eq_true.mp h4 a ha)
  rw [if_pos]
  · exact ⟨_, rfl⟩
  · rw [hext]
    simp only [List.length_append]
    omega

theorem matchAtHead_sound (s m : List Char) (h : matchAtHead s = some m) :
    (∃ ext, s = m ++ ext) ∧ emailShapeB m = true := by
  unfold matchAtHead at h
  by_cases hne : (s.takeWhile isLocalChar).isEmpty
  · rw [if_pos hne] at h; exact absurd h (by simp)
  · rw [if_neg hne] at h
    cases hdrop : s.dropWhile isLocalChar with
    | nil => rw [hdrop] at h; exact absurd h (by simp)
    | cons c rest =>
      rw [hdrop] at h
      dsimp only at h
      by_cases hc : c == '@'
      · have hceq : c = '@' := by simpa using hc
        subst hceq
        rw [if_pos hc] at h
        cases htd : tryDomain rest (rest.takeWhile isDomainChar).length with
        | none => rw [htd] at h; exact absurd h (by simp)
        | some dm =>
          rw [htd] at h
          have hm : m = s.takeWhile isLocalChar ++ '@' :: dm := by
            simpa using h.symm
          obtain ⟨hshape, ext, hext⟩ := tryDomain_sound rest dm _ (Nat.le_refl _) htd
          constructor
          · refine ⟨ext, ?_⟩
            conv_lhs => rw [← List.takeWhile_append_dropWhile (p := isLocalChar) (l := s)]
            rw [hdrop, hext, hm, List.append_assoc, List.cons_append]
          · rw [emailShapeB_iff]
            refine ⟨s.takeWhile isLocalChar, dm, hm, ?_, List.all_takeWhile, hshape⟩
            intro hnil
            rw [hnil] at hne
            exact hne (by simp)
      · rw [if_neg hc] at h; exact absurd h (by simp)

theorem matchAtHead_complete (s m ext : List Char) (hs : s = m ++ ext)
    (hm : emailShapeB m = true) : matchAtHead s ≠ none := by
  rw [emailShapeB_iff] at hm
  obtain ⟨l, r', hdec, hne, hall, hdom⟩ := hm
  rw [domShapeB_iff] at hdom
  obtain ⟨k, t, h1, h2, h3, h4, h5⟩ := hdom
  have hsplit : s = l ++ '@' :: (r' ++ ext) := by
    rw [hs, hdec, List.append_assoc, List.cons_append]
  have hmid := takeWhile_middle_not l '@' (r' ++ ext)
    (fun a ha => List.all_eq_true.mp hall a ha) isLocalChar_at
  have htake : s.takeWhile isLocalChar = l := by rw [hsplit]; exact hmid.1
  have hdropw : s.dropWhile isLocalChar = '@' :: (r' ++ ext) := by rw [hsplit]; exact hmid.2
  obtain ⟨⟨dm, hdc⟩, hle⟩ := domCheck_of_shape r' ext k t h1 h2 h3 h4 h5
  unfold matchAtHead
  dsimp only
  rw [htake, hdropw]
  dsimp only
  rw [if_neg (by simp [List.isEmpty_iff, hne])]
  rw [if_pos (by simp)]
  cases htd : tryDomain (r' ++ ext) ((r' ++ ext).takeWhile isDomainChar).length with
  | some dm' => simp
  | none => exact absurd htd (tryDomain_complete (r' ++ ext) k dm h1 hdc _ hle)

theorem searchEmail_sound (s m : List Char) (h : searchEmail s = some m) :
    ∃ pre suf, s = pre ++ m ++ suf ∧ emailShapeB m = true ∧
      ∀ pre' m' suf', s = pre' ++ m' ++ suf' → emailShapeB m' = true →
        pre.length ≤ pre'.length := by
  induction s with
  | nil => exact absurd h (by simp [searchEmail])
  | cons c cs ih =>
    unfold searchEmail at h
    cases hma : matchAtHead (c :: cs) with
    | some m0 =>
      rw [hma] at h
      have hm0 : m0 = m := by simpa using h
      subst hm0
      obtain ⟨⟨ext, hext⟩, hshape⟩ := matchAtHead_sound _ _ hma
      exact ⟨[], ext, by simpa using hext, hshape, fun pre' m' suf' _ _ => Nat.zero_le _⟩
    | none =>
      rw [hma] at h
      dsimp only at h
      obtain ⟨pre, suf, hdec, hshape, hmin⟩ := ih h
      refine ⟨c :: pre, suf, by rw [List.cons_append, List.cons_append, hdec], hshape, ?_⟩
      rintro pre' m' suf' hdec' hshape'
      cases pre' with
      | nil =>
        simp only [List.nil_append] at hdec'
        exact absurd hma (matchAtHead_complete _ m' suf' hdec' hshape')
      | cons c' pre'' =>
        have hcs : cs = pre'' ++ m' ++ suf' := by
          have := hdec'
          simp only [List.cons_append] at this
          exact (List.cons.injEq _ _ _ _ ▸ this).2
        simpa using Nat.succ_le_succ (hmin pre'' m' suf' hcs hshape')

theorem searchEmail_none (s : List Char) (h : searchEmail s = none) :
    ∀ pre m suf, s = pre ++ m ++ suf → emailShapeB m = false := by
  induction s with
  | nil =>
    rintro pre m suf hdec
    cases hm : emailShapeB m
    · rfl
    · exfalso
      have : pre = [] ∧ m ++ suf = [] := by
        constructor
        · cases pre with
          | nil => rfl
          | cons a as => simp at hdec
        · cases pre with
          | nil => simpa using hdec.symm
          | cons a as => simp at hdec
      obtain ⟨m0, r0, hm0, hne, _, _⟩ := (emailShapeB_iff m).mp hm
      have : m = [] := by
        have h2 := this.2
        cases m with
        | nil => rfl
        | cons a as => simp at h2
      rw [this] at hm0
      cases m0 with
      | nil => exact hne rfl
      | cons a as => simp at hm0
  | cons c cs ih =>
    unfold searchEmail at h
    cases hma : matchAtHead (c :: cs) with
    | some m0 => rw [hma] at h; exact absurd h (by simp)
    | none =>
      rw [hma] at h
      dsimp only at h
      rintro pre m suf hdec
      cases hm : emailShapeB m
      · rfl
      · exfalso
        cases pre with
        | nil =>
          simp only [List.nil_append] at hdec
          exact absurd hma (matchAtHead_complete _ m suf hdec hm)
        | cons c' pre' =>
          have hcs : cs = pre' ++ m ++ suf := by
            have := hdec
            simp only [List.cons_append] at this
            exact (List.cons.injEq _ _ _ _ ▸ this).2
          have := ih h pre' m suf hcs
          rw [hm] at this
          exact absurd this (by simp)

/-! Lemmas on the href scan. -/

theorem containsSub_of_startsWith (n h : List Char) (hs : startsWithL n h = true) :
    containsSub n h = true := by
  cases h with
  | nil =>
    cases n with
    | nil => rfl
    | cons a as => simp [startsWithL] at hs
  | cons c rest => simp [containsSub, hs]

theorem scanUrls_mailto_sole (base : String) (v : List Char) (rest : List (List Char)) :
    ∀ (pre : List (List Char)) (acc : List String),
      (∀ u ∈ pre, containsSub "mailto:".data u = true →
        (splitQ (removeMailto u)).isEmpty = true) →
      containsSub "mailto:".data v = true →
      (splitQ (removeMailto v)).isEmpty = false →
      scanUrls base (pre ++ v :: rest) acc = [String.mk (splitQ (removeMailto v))] := by
  intro pre
  induction pre with
  | nil =>
    intro acc _ hv hemp
    simp only [List.nil_append, scanUrls]
    rw [if_pos hv, if_neg (by simp [hemp])]
  | cons u pre' ih =>
    intro acc hpre hv hemp
    simp only [List.cons_append, scanUrls]
    by_cases hu : containsSub "mailto:".data u = true
    · rw [if_pos hu, if_pos (hpre u (by simp) hu)]
      exact ih acc (fun w hw => hpre w (by simp [hw])) hv hemp
    · rw [if_neg hu]
      by_cases hk : contactKeywords.any (fun sub => containsSub sub.data u) = true
      · rw [if_pos hk]
        exact ih _ (fun w hw => hpre w (by simp [hw])) hv hemp
      · rw [if_neg hk]
        exact ih acc (fun w hw => hpre w (by simp [hw])) hv hemp

theorem scanUrls_no_mailto (base : String) :
    ∀ (l : List (List Char)) (acc : List String),
      (∀ u ∈ l, containsSub "mailto:".data u = false) →
      scanUrls base l acc =
        acc ++ (l.filter (fun u =>
          contactKeywords.any (fun sub => containsSub sub.data u))).map
            (resolveContact base) := by
  intro l
  induction l with
  | nil => intro acc _; simp [scanUrls]
  | cons u rest ih =>
    intro acc hl
    have hu : containsSub "mailto:".data u = false := hl u (by simp)
    simp only [scanUrls]
    rw [if_neg (by simp [hu])]
    by_cases hk : contactKeywords.any (fun sub => containsSub sub.data u) = true
    · rw [if_pos hk, List.filter_cons_of_pos (by simpa using hk), List.map_cons,
        ih _ (fun w hw => hl w (by simp [hw])), List.append_assoc, List.singleton_append]
    · rw [if_neg hk, List.filter_cons_of_neg (by simpa using hk),
        ih acc (fun w hw => hl w (by simp [hw]))]

/-! Lemmas on the fallback chain. -/

theorem contactLoop_all_fail (net : Network) :
    ∀ l, (∀ p ∈ l, candOutcome net p = none) → contactLoop net l = (none, l) := by
  intro l
  induction l with
  | nil => intro _; rfl
  | cons c rest ih =>
    intro hall
    have hc := hall c (by simp)
    have hrest := ih (fun p hp => hall p (by simp [hp]))
    unfold candOutcome at hc
    by_cases hat : containsSub "@".data c.data = true
    · rw [if_pos hat] at hc; exact absurd hc (by simp)
    · rw [if_neg hat] at hc
      unfold contactLoop
      rw [if_neg hat]
      cases hf : fetch net c with
      | none => simp [hrest]
      | some s =>
        rw [hf] at hc
        dsimp only at hc ⊢
        by_cases hse : s.isEmpty = true
        · rw [if_pos hse]
          simp [hrest]
        · rw [if_neg hse] at hc ⊢
          rw [hc]
          simp [hrest]

theorem contactLoop_first_success (net : Network) :
    ∀ (pre : List String) (c : String) (post : List String) (e : String),
      (∀ p ∈ pre, candOutcome net p = none) → candOutcome net c = some e →
      contactLoop net (pre ++ c :: post) =
        (some e, pre ++ if containsSub "@".data c.data then [] else [c]) := by
  intro pre
  induction pre with
  | nil =>
    intro c post e _ hc
    unfold candOutcome at hc
    simp only [List.nil_append]
    unfold contactLoop
    by_cases hat : containsSub "@".data c.data = true
    · rw [if_pos hat] at hc ⊢
      simp only [Option.some.injEq] at hc
      subst hc
      rw [if_pos hat]
    · rw [if_neg hat] at hc ⊢
      cases hf : fetch net c with
      | none => rw [hf] at hc; exact absurd hc (by simp)
      | some s =>
        rw [hf] at hc
        dsimp only at hc ⊢
        by_cases hse : s.isEmpty = true
        · rw [if_pos hse] at hc; exact absurd hc (by simp)
        · rw [if_neg hse] at hc ⊢
          rw [hc]
          simp [hat]
  | cons u pre' ih =>
    intro c post e hpre hc
    have hu := hpre u (by simp)
    have hrec := ih c post e (fun p hp => hpre p (by simp [hp])) hc
    unfold candOutcome at hu
    by_cases hat : containsSub "@".data u.data = true
    · rw [if_pos hat] at hu; exact absurd hu (by simp)
    · rw [if_neg hat] at hu
      simp only [List.cons_append]
      unfold contactLoop
      rw [if_neg hat]
      cases hf : fetch net u with
      | none => simp [hrec]
      | some s =>
        rw [hf] at hu
        dsimp only at hu ⊢
        by_cases hse : s.isEmpty = true
        · rw [if_pos hse]
          simp [hrec]
        · rw [if_neg hse] at hu ⊢
          rw [hu]
          simp [hrec]

/-! Lemmas on process_website and the batch runs. -/

theorem process_website_dup (net : Network) (P : List String) (url : String)
    (h : extract_homepage url ∈ P) :
    process_website net P url = (P, none, [], []) := by
  unfold process_website
  rw [if_pos h]

theorem process_website_new (net : Network) (P : List String) (url : String)
    (h : extract_homepage url ∉ P) :
    ∃ e cf, process_website net P url =
      (addSet P (extract_homepage url), some (extract_homepage url, e),
        [extract_homepage url], cf) := by
  unfold process_website
  rw [if_neg h]
  cases hf : fetch net (extract_homepage url) with
  | none => exact ⟨none, [], rfl⟩
  | some s =>
    dsimp only
    by_cases hse : s.isEmpty = true
    · rw [if_pos hse]
      exact ⟨none, [], rfl⟩
    · rw [if_neg hse]
      cases hfe : find_email s with
      | some e => exact ⟨some e, [], rfl⟩
      | none =>
        dsimp only
        exact ⟨_, _, rfl⟩

theorem mem_addSet_of_mem {P : List String} {h h' : String} (hm : h ∈ P) :
    h ∈ addSet P h' := by
  unfold addSet
  split
  · exact hm
  · exact List.mem_append_left _ hm

theorem mem_addSet_self (P : List String) (h' : String) : h' ∈ addSet P h' := by
  unfold addSet
  split
  · assumption
  · simp

theorem runSeq_absent (net : Network) (h : String) :
    ∀ (urls : List String) (P : List String), h ∈ P →
      (runSeq net P urls).homeFetches.count h = 0 ∧
      countResultsFor h (runSeq net P urls).results = 0 ∧
      h ∈ (runSeq net P urls).processed := by
  intro urls
  induction urls with
  | nil => intro P hP; exact ⟨rfl, rfl, hP⟩
  | cons u rest ih =>
    intro P hP
    by_cases hd : extract_homepage u ∈ P
    · have heq := process_website_dup net P u hd
      simp only [runSeq, heq]
      obtain ⟨ih1, ih2, ih3⟩ := ih P hP
      refine ⟨by simpa using ih1, ?_, ih3⟩
      simp only [countResultsFor, List.countP_cons] at ih2 ⊢
      simpa using ih2
    · obtain ⟨e, cf, heq⟩ := process_website_new net P u hd
      have hne : extract_homepage u ≠ h := fun hcontra => hd (hcontra ▸ hP)
      simp only [runSeq, heq]
      obtain ⟨ih1, ih2, ih3⟩ := ih (addSet P (extract_homepage u)) (mem_addSet_of_mem hP)
      refine ⟨?_, ?_, ih3⟩
      · simp only [List.singleton_append, List.count_cons, ih1]
        simp [hne]
      · simp only [countResultsFor, List.countP_cons] at ih2 ⊢
        simp only [ih2]
        simp [hne]

theorem runSeq_le_one (net : Network) (h : String) :
    ∀ (urls : List String) (P : List String),
      (runSeq net P urls).homeFetches.count h ≤ 1 ∧
      countResultsFor h (runSeq net P urls).results ≤ 1 := by
  intro urls
  induction urls with
  | nil => intro P; exact ⟨Nat.le_of_eq rfl |>.trans (Nat.zero_le 1 |>.trans (Nat.le_refl 1)), Nat.zero_le 1⟩
  | cons u rest ih =>
    intro P
    by_cases hd : extract_homepage u ∈ P
    · have heq := process_website_dup net P u hd
      simp only [runSeq, heq]
      obtain ⟨ih1, ih2⟩ := ih P
      refine ⟨by simpa using ih1, ?_⟩
      simp only [countResultsFor, List.countP_cons] at ih2 ⊢
      simpa using ih2
    · obtain ⟨e, cf, heq⟩ := process_website_new net P u hd
      simp only [runSeq, heq]
      by_cases hh : extract_homepage u = h
      · have habs := runSeq_absent net h rest (addSet P (extract_homepage u))
          (hh ▸ mem_addSet_self P (extract_homepage u))
        refine ⟨?_, ?_⟩
        · simp only [List.singleton_append, List.count_cons, habs.1]
          simp [hh]
        · simp only [countResultsFor, List.countP_cons]
          have h2 := habs.2.1
          simp only [countResultsFor] at h2
          simp only [h2]
          simp [hh]
      · obtain ⟨ih1, ih2⟩ := ih (addSet P (extract_homepage u))
        refine ⟨?_, ?_⟩
        · simp only [List.singleton_append, List.count_cons, ih1]
          simp only [beq_eq_false_iff_ne.mpr hh, if_false]
          simpa using ih1
        · simp only [countResultsFor, List.countP_cons] at ih2 ⊢
          simp only [beq_eq_false_iff_ne.mpr hh]
          simpa using ih2

theorem stepTask_preserves (net : Network) (g : GState) (i : Nat) (h : String)
    (hm : h ∈ g.processed) :
    h ∈ (stepTask net g i).processed ∧
      (stepTask net g i).homeFetches.count h = g.homeFetches.count h := by
  unfold stepTask
  cases hg : g.tasks.get? i with
  | none => exact ⟨hm, rfl⟩
  | some t =>
    cases t with
    | start url =>
      dsimp only
      by_cases hd : extract_homepage url ∈ g.processed
      · rw [if_pos hd]
        exact ⟨hm, rfl⟩
      · rw [if_neg hd]
        have hne : extract_homepage url ≠ h := fun hcontra => hd (hcontra ▸ hm)
        refine ⟨hm, ?_⟩
        simp only [List.count_append, List.count_cons, List.count_nil]
        simp [hne]
    | awaitHome h' => exact ⟨mem_addSet_of_mem hm, rfl⟩
    | awaitContact h' c rest => exact ⟨hm, rfl⟩
    | finished r => exact ⟨hm, rfl⟩

theorem runSched_preserves (net : Network) (h : String) :
    ∀ (sched : List Nat) (g : GState), h ∈ g.processed →
      h ∈ (runSched net g sched).processed ∧
        (runSched net g sched).homeFetches.count h = g.homeFetches.count h := by
  intro sched
  induction sched with
  | nil => intro g hm; exact ⟨hm, rfl⟩
  | cons i rest ih =>
    intro g hm
    have hstep := stepTask_preserves net g i h hm
    have hrec := ih (stepTask net g i) hstep.1
    exact ⟨hrec.1, hrec.2.trans hstep.2⟩

theorem runSeq_exactly_one (net : Network) (h : String) :
    ∀ (urls : List String) (P : List String), h ∉ P →
      (∃ u ∈ urls, extract_homepage u = h) →
      (runSeq net P urls).homeFetches.count h = 1 ∧
      countResultsFor h (runSeq net P urls).results = 1 := by
  intro urls
  induction urls with
  | nil =>
    rintro P _ ⟨u, hu, _⟩
    simp at hu
  | cons u rest ih =>
    rintro P hP hex
    by_cases hh : extract_homepage u = h
    · have hd : extract_homepage u ∉ P := hh ▸ hP
      obtain ⟨e, cf, heq⟩ := process_website_new net P u hd
      simp only [runSeq, heq]
      have habs := runSeq_absent net h rest (addSet P (extract_homepage u))
        (hh ▸ mem_addSet_self P _)
      constructor
      · simp only [List.singleton_append, List.count_cons, habs.1]
        simp [hh]
      · simp only [countResultsFor, List.countP_cons]
        have h2 := habs.2.1
        simp only [countResultsFor] at h2
        simp only [h2]
        simp [hh]
    · have hex' : ∃ w ∈ rest, extract_homepage w = h := by
        obtain ⟨w, hw, hwh⟩ := hex
        rcases List.mem_cons.mp hw with rfl | hw'
        · exact absurd hwh hh
        · exact ⟨w, hw', hwh⟩
      by_cases hd : extract_homepage u ∈ P
      · simp only [runSeq, process_website_dup net P u hd]
        obtain ⟨ih1, ih2⟩ := ih P hP hex'
        refine ⟨by simpa using ih1, ?_⟩
        simp only [countResultsFor, List.countP_cons] at ih2 ⊢
        simpa using ih2
      · obtain ⟨e, cf, heq⟩ := process_website_new net P u hd
        simp only [runSeq, heq]
        have hP1 : h ∉ addSet P (extract_homepage u) := by
          unfold addSet
          split
          · exact hP
          · intro hmem
            rcases List.mem_append.mp hmem with h1 | h2
            · exact hP h1
            · exact hh (List.mem_singleton.mp h2).symm
        obtain ⟨ih1, ih2⟩ := ih (addSet P (extract_homepage u)) hP1 hex'
        constructor
        · simp only [List.singleton_append, List.count_cons, ih1]
          simp [beq_eq_false_iff_ne.mpr hh]
        · simp only [countResultsFor, List.countP_cons] at ih2 ⊢
          simp only [ih2]
          simp [beq_eq_false_iff_ne.mpr hh]

/-! Claim theorems. -/

/-- Claim C1, counterexample.  The claim says a Homepage is never fetched
twice in a run, with the insertion into ProcessedHomepageSet atomic with
the membership check and placed before the fetch begins.  On the code,
two tasks for URLs with the same Homepage that interleave at the fetch
await point both pass the membership check and both fetch: the run below
records two homepage fetches of https a.com and emits two SiteResults for
it, and after the first task's first step the fetch has been issued while
the set is still empty (the insertion only happens after the fetch
returns, src/main.py line 136). -/
theorem c1_counterexample :
    (runSched netOkPlain (initG ["https://a.com/x", "https://a.com/y"] [])
        [0, 1, 0, 1]).homeFetches = ["https://a.com", "https://a.com"] ∧
    gatherResults (runSched netOkPlain (initG ["https://a.com/x", "https://a.com/y"] [])
        [0, 1, 0, 1]) = [some ("https://a.com", none), some ("https://a.com", none)] ∧
    (runSched netOkPlain (initG ["https://a.com/x", "https://a.com/y"] [])
        [0]).homeFetches = ["https://a.com"] ∧
    (runSched netOkPlain (initG ["https://a.com/x", "https://a.com/y"] [])
        [0]).processed = [] :=
  ⟨rfl, rfl, rfl, rfl⟩

/-- Claim C1, amended.  When each task runs to completion before the next
starts (no interleaving between the membership check and the insertion),
the dedup set does its job: over a run started with an empty set, any
Homepage is fetched at most once and yields at most one SiteResult, and a
Homepage that some CandidateURL maps to is fetched exactly once and
yields exactly one SiteResult. -/
theorem c1_amended (net : Network) (urls : List String) (h : String) :
    ((runSeq net [] urls).homeFetches.count h ≤ 1 ∧
      countResultsFor h (runSeq net [] urls).results ≤ 1) ∧
    ((∃ u ∈ urls, extract_homepage u = h) →
      (runSeq net [] urls).homeFetches.count h = 1 ∧
        countResultsFor h (runSeq net [] urls).results = 1) :=
  ⟨runSeq_le_one net h urls [], fun hex =>
    runSeq_exactly_one net h urls [] (by simp) hex⟩

/-- Claim C1, amended, witness at a concrete input: two CandidateURLs with
the same Homepage, run sequentially, produce exactly one homepage fetch
and exactly one SiteResult. -/
theorem c1_amended_witness :
    (runSeq netOkPlain [] ["https://a.com/x", "https://a.com/y"]).homeFetches.count
        "https://a.com" = 1 ∧
    countResultsFor "https://a.com"
        (runSeq netOkPlain [] ["https://a.com/x", "https://a.com/y"]).results = 1 :=
  (c1_amended netOkPlain ["https://a.com/x", "https://a.com/y"] "https://a.com").2
    ⟨"https://a.com/x", by simp, by decide⟩

/-- Claim C2.  The claim says every batch run completes without raising
and duplicates are simply absent from the output.  On the code, a
duplicate makes process_website return None and the CSV loop of
scrape_emails unpacks it, raising a TypeError: the first run below (two
URLs with the same Homepage, the first task completing before the second
starts) errors, while the second run (distinct Homepages, every fetch
failing) completes with an empty row list, showing the crash comes from
the duplicate and not from fetch failures. -/
theorem c2_failing_eval :
    scrape_emails netDown [] ["https://a.com/x", "https://a.com/y"] [0, 0, 1] =
      .error "TypeError: cannot unpack non-iterable NoneType object" ∧
    scrape_emails netDown [] ["https://a.com/x", "https://b.com/y"] [0, 1, 0, 1] =
      .ok [] :=
  ⟨rfl, rfl⟩

/-- Claim C3, counterexample.  The claim says each run starts with a
fresh empty ProcessedHomepageSet and a Homepage processed in an earlier
run is processed again later.  ALREADY_PROCESSED is a class attribute
that scrape_emails never clears: a second run started from the first
run's final set performs no fetch at all for the same URL and returns no
result for it. -/
theorem c3_counterexample :
    (runSched netDown (initG ["https://a.com/x"] []) [0, 0]).processed =
        ["https://a.com"] ∧
    (runSched netDown (initG ["https://a.com/x"] []) [0, 0]).homeFetches =
        ["https://a.com"] ∧
    gatherResults (runSched netDown (initG ["https://a.com/x"] []) [0, 0]) =
        [some ("https://a.com", none)] ∧
    (runSched netDown (initG ["https://a.com/x"] ["https://a.com"]) [0]).homeFetches =
        [] ∧
    gatherResults (runSched netDown (initG ["https://a.com/x"] ["https://a.com"]) [0]) =
        [none] :=
  ⟨rfl, rfl, rfl, rfl, rfl⟩

/-- Claim C3, amended.  The dedup set is process-wide: a run started with
a Homepage already in ALREADY_PROCESSED (for instance from an earlier run
of the same process) never fetches that Homepage again, under any
schedule. -/
theorem c3_amended (net : Network) (urls P0 : List String) (sched : List Nat)
    (h : String) (hm : h ∈ P0) :
    (runSched net (initG urls P0) sched).homeFetches.count h = 0 := by
  have hpre := runSched_preserves net h sched (initG urls P0) hm
  simpa [initG] using hpre.2

/-- Claim C3, amended, witness: a later run over the same URL with the
homepage already in the persisted set performs zero homepage fetches. -/
theorem c3_amended_witness :
    (runSched netDown (initG ["https://a.com/x"] ["https://a.com"])
        [0, 0]).homeFetches.count "https://a.com" = 0 :=
  c3_amended netDown ["https://a.com/x"] ["https://a.com"] [0, 0] "https://a.com"
    (by simp)

/-- Claim C4, counterexample.  The claim says find_email returns the
first substring matching the email pattern and absent only when there is
no match.  The text below contains the pattern match logo at 2x.png
(found by the regex search), yet find_email returns none because of the
image-extension post-filter. -/
theorem c4_counterexample :
    "contact us at logo@2x.png for more".data =
        "contact us at ".data ++ "logo@2x.png".data ++ " for more".data ∧
    emailShapeB "logo@2x.png".data = true ∧
    searchEmail "contact us at logo@2x.png for more".data =
        some "logo@2x.png".data ∧
    find_email "contact us at logo@2x.png for more" = none :=
  ⟨rfl, by decide, by decide, by decide⟩

/-- Claim C4, amended.  Whenever find_email returns a value, that value
matches the email pattern and occurs in the text at a position no later
than any other pattern match (it is the first match in document order);
when no substring of the text matches the pattern, find_email returns
absent; and conversely, whenever some substring of the text matches the
pattern, the regex search succeeds with a first match m0 and find_email
returns exactly m0 when m0 does not end in an image-file extension, and
absent when it does.  The only amendment to the claim is this post-filter
exception: a first match carrying an image-file extension yields absent
rather than the match (claim C5). -/
theorem c4_amended (t : String) :
    (∀ m, find_email t = some m →
      emailShapeB m.data = true ∧
      ∃ pre suf, t.data = pre ++ m.data ++ suf ∧
        ∀ pre' m' suf', t.data = pre' ++ m' ++ suf' → emailShapeB m' = true →
          pre.length ≤ pre'.length) ∧
    ((∀ pre m suf, t.data = pre ++ m ++ suf → emailShapeB m = false) →
      find_email t = none) ∧
    (∀ pre m suf, t.data = pre ++ m ++ suf → emailShapeB m = true →
      ∃ m0, searchEmail t.data = some m0 ∧
        (hasImageSuffix m0 = false → find_email t = some (String.mk m0)) ∧
        (hasImageSuffix m0 = true → find_email t = none)) := by
  refine ⟨?_, ?_, ?_⟩
  · intro m hm
    unfold find_email at hm
    by_cases hemp : t.data.isEmpty = true
    · rw [if_pos hemp] at hm
      exact absurd hm (by simp)
    · rw [if_neg hemp] at hm
      cases hse : searchEmail t.data with
      | none => rw [hse] at hm; exact absurd hm (by simp)
      | some m0 =>
        rw [hse] at hm
        dsimp only at hm
        by_cases him : hasImageSuffix m0 = true
        · rw [if_pos him] at hm
          exact absurd hm (by simp)
        · rw [if_neg him] at hm
          have hmk : String.mk m0 = m := by simpa using hm
          have hm0 : m.data = m0 := by rw [← hmk]
          obtain ⟨pre, suf, hdec, hshape, hmin⟩ := searchEmail_sound t.data m0 hse
          exact ⟨by rw [hm0]; exact hshape, pre, suf, by rw [hm0]; exact hdec, hmin⟩
  · intro hnone
    cases hse : searchEmail t.data with
    | some m0 =>
      obtain ⟨pre, suf, hdec, hshape, _⟩ := searchEmail_sound t.data m0 hse
      rw [hnone pre m0 suf hdec] at hshape
      exact absurd hshape (by simp)
    | none =>
      unfold find_email
      by_cases hemp : t.data.isEmpty = true
      · rw [if_pos hemp]
      · rw [if_neg hemp, hse]
  · intro pre m suf hdec hm
    cases hse : searchEmail t.data with
    | none =>
      have := searchEmail_none t.data hse pre m suf hdec
      rw [hm] at this
      exact absurd this (by simp)
    | some m0 =>
      have hne : ¬t.data.isEmpty = true := by
        intro hemp
        rw [List.isEmpty_iff.mp hemp] at hse
        exact absurd hse (by simp [searchEmail])
      refine ⟨m0, rfl, ?_, ?_⟩
      · intro him
        unfold find_email
        rw [if_neg hne, hse]
        dsimp only
        rw [if_neg (by simp [him])]
      · intro him
        unfold find_email
        rw [if_neg hne, hse]
        dsimp only
        rw [if_pos him]

/-- Claim C4, amended, witness: on a concrete text the returned email
matches the pattern, occurs in the text, and is leftmost among pattern
matches; and, from the positive half, a text containing a match whose
first match lacks an image suffix makes find_email return that match. -/
theorem c4_amended_witness :
    (emailShapeB "a@b.co".data = true ∧
      ∃ pre suf, "reach me at a@b.co now".data = pre ++ "a@b.co".data ++ suf ∧
        ∀ pre' m' suf', "reach me at a@b.co now".data = pre' ++ m' ++ suf' →
          emailShapeB m' = true → pre.length ≤ pre'.length) ∧
    find_email "reach me at a@b.co now" = some "a@b.co" := by
  constructor
  · exact (c4_amended "reach me at a@b.co now").1 "a@b.co" (by decide)
  · obtain ⟨m0, hse, hpos, _⟩ :=
      (c4_amended "reach me at a@b.co now").2.2 "reach me at ".data "a@b.co".data
        " now".data (by decide) (by decide)
    have hm0 : m0 = "a@b.co".data := by
      have h1 : searchEmail "reach me at a@b.co now".data = some "a@b.co".data := by
        decide
      exact Option.some.inj (hse.symm.trans h1)
    rw [hm0] at hpos
    exact hpos (by decide)

/-- Claim C5.  When the regex search finds a first match ending in one of
the image-file extensions png, jpg, jpeg, gif, svg, bmp, webp (checked as
a case-sensitive suffix), find_email discards it and returns absent. -/
theorem c5_theorem (t : String) (m : List Char)
    (hse : searchEmail t.data = some m) (him : hasImageSuffix m = true) :
    find_email t = none := by
  unfold find_email
  by_cases hemp : t.data.isEmpty = true
  · rw [if_pos hemp]
  · rw [if_neg hemp, hse]
    dsimp only
    rw [if_pos him]

/-- Claim C5, witness: the spec example, where the first regex match is
logo at 2x.png and find_email returns absent. -/
theorem c5_theorem_witness :
    searchEmail "contact us at logo@2x.png for more".data =
        some "logo@2x.png".data ∧
    hasImageSuffix "logo@2x.png".data = true ∧
    find_email "contact us at logo@2x.png for more" = none :=
  ⟨by decide, by decide,
    c5_theorem "contact us at logo@2x.png for more" "logo@2x.png".data
      (by decide) (by decide)⟩

/-- Claim C6, counterexample.  The claim says a value beginning with
mailto gets its mailto prefix stripped.  The code instead removes every
occurrence of the substring mailto colon (str.replace with empty
replacement): on the href value below, prefix stripping would leave one
string while find_contact_urls returns another. -/
theorem c6_counterexample :
    startsWithL "mailto:".data "mailto:amailto:b@x.co".data = true ∧
    splitQ ("mailto:amailto:b@x.co".data.drop 7) = "amailto:b@x.co".data ∧
    find_contact_urls "https://x.com" "<a href=\"mailto:amailto:b@x.co\">" =
        ["ab@x.co"] ∧
    ("ab@x.co" : String) ≠ "amailto:b@x.co" :=
  ⟨by decide, by decide, by decide, by decide⟩

/-- Claim C6, amended.  For the first href value that begins with mailto
colon and whose cleaned remainder is nonempty (earlier values containing
mailto colon must have an empty remainder), find_contact_urls removes
every occurrence of mailto colon, strips any trailing query, and returns
the remainder immediately as the sole result, collecting nothing else
from the document. -/
theorem c6_amended (base html : String) (pre : List (List Char)) (v : List Char)
    (rest : List (List Char))
    (hh : hrefValues html.data = pre ++ v :: rest)
    (hpre : ∀ u ∈ pre, containsSub "mailto:".data u = true →
      (splitQ (removeMailto u)).isEmpty = true)
    (hv : startsWithL "mailto:".data v = true)
    (hne : (splitQ (removeMailto v)).isEmpty = false) :
    find_contact_urls base html = [String.mk (splitQ (removeMailto v))] := by
  unfold find_contact_urls
  rw [hh]
  exact scanUrls_mailto_sole base v rest pre [] hpre
    (containsSub_of_startsWith _ _ hv) hne

/-- Claim C6, amended, witness: a mailto value preceded by a contact link
and followed by another link yields the mailto email as the sole result
and the other links are dropped. -/
theorem c6_amended_witness :
    find_contact_urls "https://x.com"
        "<a href=\"/contact\"><a href=\"mailto:a@b.co\"><a href=\"/about\">" =
      ["a@b.co"] := by
  have happ := c6_amended "https://x.com"
    "<a href=\"/contact\"><a href=\"mailto:a@b.co\"><a href=\"/about\">"
    ["/contact".data] "mailto:a@b.co".data ["/about".data]
    (by decide) (by decide) (by decide) (by decide)
  exact happ.trans (by decide)

/-- Claim C7.  When no href value of the document contains mailto colon,
find_contact_urls returns exactly the href values containing one of the
case-sensitive substrings contact, about, terms, in document order, each
resolved against the base URL exactly when it does not contain the
substring http and kept verbatim otherwise. -/
theorem c7_theorem (base html : String)
    (hnm : ∀ u ∈ hrefValues html.data, containsSub "mailto:".data u = false) :
    find_contact_urls base html =
      ((hrefValues html.data).filter (fun u =>
        contactKeywords.any (fun sub => containsSub sub.data u))).map
          (resolveContact base) := by
  unfold find_contact_urls
  simpa using scanUrls_no_mailto base (hrefValues html.data) [] hnm

/-- Claim C7, witness: the two spec examples, a relative contact link
joined onto the base and an absolute about link kept verbatim. -/
theorem c7_theorem_witness :
    find_contact_urls "https://x.com"
        "<a href=\"/contact-us\">c</a> <a href=\"https://other.com/about\">a</a>" =
      ["https://x.com/contact-us", "https://other.com/about"] ∧
    resolveContact "https://x.com" "/contact-us".data = "https://x.com/contact-us" ∧
    resolveContact "https://x.com" "https://other.com/about".data =
      "https://other.com/about" := by
  refine ⟨?_, by decide, by decide⟩
  have happ := c7_theorem "https://x.com"
    "<a href=\"/contact-us\">c</a> <a href=\"https://other.com/about\">a</a>"
    (by decide)
  exact happ.trans (by decide)

/-- Claim C8.  In the fallback chain: when every candidate fails (its
fetch fails or its page has no email; a candidate containing an at sign
never fails), the loop fetches every candidate in order and ends with no
email; and the first successful candidate stops the loop, so that only
the failing ones before it (each fetched, fetch failures merely
advancing) plus the successful one itself, when it needed a fetch, are
ever fetched, a candidate containing an at sign being used directly as
the email without a fetch; candidates after the first success are never
fetched. -/
theorem c8_theorem (net : Network) :
    (∀ l, (∀ p ∈ l, candOutcome net p = none) → contactLoop net l = (none, l)) ∧
    (∀ pre c post e, (∀ p ∈ pre, candOutcome net p = none) →
      candOutcome net c = some e →
      contactLoop net (pre ++ c :: post) =
        (some e, pre ++ if containsSub "@".data c.data then [] else [c])) :=
  ⟨contactLoop_all_fail net, contactLoop_first_success net⟩

/-- Claim C8, witness: the first candidate fetch times out and the scan
advances, the second candidate page carries an email and the loop stops,
the third candidate is never fetched; a candidate containing an at sign
is used directly with no fetch; and an exhausted chain yields no email. -/
theorem c8_theorem_witness :
    contactLoop netContactDemo
        ["https://x.com/contact", "https://x.com/about", "https://x.com/terms"] =
      (some "e@f.gh", ["https://x.com/contact", "https://x.com/about"]) ∧
    contactLoop netContactDemo ["info@d.ef", "https://x.com/terms"] =
      (some "info@d.ef", []) ∧
    contactLoop netContactDemo ["https://x.com/terms"] =
      (none, ["https://x.com/terms"]) := by
  refine ⟨?_, ?_, ?_⟩
  · have happ := (c8_theorem netContactDemo).2 ["https://x.com/contact"]
      "https://x.com/about" ["https://x.com/terms"] "e@f.gh" (by decide) (by decide)
    exact happ.trans (by decide)
  · have happ := (c8_theorem netContactDemo).2 [] "info@d.ef" ["https://x.com/terms"]
      "info@d.ef" (by decide) (by decide)
    exact happ.trans (by decide)
  · exact (c8_theorem netContactDemo).1 ["https://x.com/terms"] (by decide)

/-- Claim C9.  fetch returns the response body exactly when the status is
200 (any other status and any raised error yield none, no exception
escaping), and when the homepage fetch of a not-yet-processed URL fails,
process_website terminates at once with the result homepage paired with
no email. -/
theorem c9_theorem (net : Network) (url : String) (P : List String) :
    (∀ b, fetch net url = some b ↔ net url = .ok 200 b) ∧
    (extract_homepage url ∉ P → fetch net (extract_homepage url) = none →
      process_website net P url =
        (addSet P (extract_homepage url), some (extract_homepage url, none),
          [extract_homepage url], [])) := by
  constructor
  · intro b
    constructor
    · intro h
      unfold fetch at h
      cases hn : net url with
      | ok s b' =>
        rw [hn] at h
        dsimp only at h
        by_cases hs : (s == 200) = true
        · rw [if_pos hs] at h
          have hb : b' = b := by simpa using h
          have hs' : s = 200 := by simpa using hs
          rw [hs', hb]
        · rw [if_neg hs] at h
          exact absurd h (by simp)
      | err r =>
        rw [hn] at h
        exact absurd h (by simp)
    · intro h
      unfold fetch
      rw [h]
      simp
  · intro hd hf
    unfold process_website
    rw [if_neg hd, hf]

/-- Claim C9, witness: on a network where every fetch raises, fetch
returns none and process_website returns the homepage with no email. -/
theorem c9_theorem_witness :
    (fetch netDown "https://a.com" = some "x" ↔
      netDown "https://a.com" = .ok 200 "x") ∧
    process_website netDown [] "https://a.com/x" =
      (["https://a.com"], some ("https://a.com", none), ["https://a.com"], []) := by
  refine ⟨(c9_theorem netDown "https://a.com" []).1 "x", ?_⟩
  have happ := (c9_theorem netDown "https://a.com/x" []).2 (by simp) (by decide)
  exact happ.trans (by decide)

/-- Claim C10.  find_contact_urls classifies an href value as a mailto
link whenever mailto colon occurs anywhere in it, removes every
occurrence of mailto colon (not only a leading prefix), strips the
trailing query, and returns the nonempty remainder immediately as the
sole result. -/
theorem c10_theorem (base html : String) (pre : List (List Char)) (v : List Char)
    (rest : List (List Char))
    (hh : hrefValues html.data = pre ++ v :: rest)
    (hpre : ∀ u ∈ pre, containsSub "mailto:".data u = true →
      (splitQ (removeMailto u)).isEmpty = true)
    (hv : containsSub "mailto:".data v = true)
    (hne : (splitQ (removeMailto v)).isEmpty = false) :
    find_contact_urls base html = [String.mk (splitQ (removeMailto v))] := by
  unfold find_contact_urls
  rw [hh]
  exact scanUrls_mailto_sole base v rest pre [] hpre hv hne

/-- Claim C10, witness: an href value with mailto colon in the middle
(not a prefix) is still classified as a mailto link and the occurrence is
removed from the middle of the value. -/
theorem c10_theorem_witness :
    startsWithL "mailto:".data "x-mailto:a@b.c".data = false ∧
    find_contact_urls "https://x.com" "<a href=\"x-mailto:a@b.c\">" =
      ["x-a@b.c"] := by
  refine ⟨by decide, ?_⟩
  have happ := c10_theorem "https://x.com" "<a href=\"x-mailto:a@b.c\">"
    [] "x-mailto:a@b.c".data [] (by decide) (by simp) (by decide) (by decide)
  exact happ.trans (by decide)

end EmailScraper
